import Mathlib

set_option maxHeartbeats 1000000
set_option maxRecDepth 10000

/-! Shallow embedding of the benchmark script in src/main.py.

The script defines a fixed SQL query, three functions that each run the
query over an ADBC BigQuery connection (dbc_docs, pl_direct_con,
pl_direct_cursor), a timing helper (measure), and a main routine that
warms each function up, times repeated invocations in two phases
(connections closed vs. deliberately left open), aggregates the timings
with polars (group_by / mean-std-min-max / sort by mean) and writes two
CSV files.

Connection-handling is modelled as the list of driver events a call
performs; the perf_counter clock is modelled as a function from reading
index to rationals; polars tables are modelled as lists of records with
exact rational arithmetic (the std column, a square root, lives in the
reals).  The enumeration order that polars group_by uses for the group
keys is not specified by the library, so the aggregation is parametrised
by that order; a valid order is any permutation of the distinct keys. -/

namespace DbcPolars

/-- The fixed query text from src/main.py. -/
def QUERY : String :=
  "\n    SELECT\n        spc_latin,\n        spc_common,\n        COUNT(*) AS count,\n        ROUND(COUNTIF(health=\"Good\")/COUNT(*)*100) AS healthy_pct\n    FROM\n        `bigquery-public-data.new_york.tree_census_2015`\n    WHERE\n        status=\"Alive\"\n    GROUP BY\n        spc_latin,\n        spc_common\n    ORDER BY\n        count DESC\n"

/-- N_RUNS = 30 from src/main.py. -/
def N_RUNS : Nat := 30

/-- The three query-execution functions of the script. -/
inductive Method
  | dbcDocs
  | plDirectCon
  | plDirectCursor
deriving DecidableEq

/-- The two lifecycle phases of the benchmark loop. -/
inductive Phase
  | closed
  | notClosed
deriving DecidableEq

/-- Driver/library events a method invocation performs, in order. -/
inductive ConEvent
  | openCon
  | newCursor
  | execQuery (q : String)
  | fetchArrow
  | toDataFrame
  | readDatabase (q : String)
  | closeCursor
  | closeCon
deriving DecidableEq

/-- dbc_docs: with-block over dbapi.connect and con.cursor; executes QUERY,
fetches an arrow table, converts to a polars DataFrame; the with-block
closes the cursor and the connection on exit.  It takes no parameter. -/
def dbc_docs : List ConEvent :=
  [ConEvent.openCon, ConEvent.newCursor, ConEvent.execQuery QUERY,
   ConEvent.fetchArrow, ConEvent.toDataFrame, ConEvent.closeCursor,
   ConEvent.closeCon]

/-- pl_direct_con(close_con): connects, pl.read_database on the connection,
then closes the connection iff close_con.  The source default is true. -/
def pl_direct_con (close_con : Bool) : List ConEvent :=
  [ConEvent.openCon, ConEvent.readDatabase QUERY] ++
    (if close_con then [ConEvent.closeCon] else [])

/-- pl_direct_cursor(close_con): connects, pl.read_database on a fresh
cursor of the connection, then closes the connection iff close_con.
The source default is true. -/
def pl_direct_cursor (close_con : Bool) : List ConEvent :=
  [ConEvent.openCon, ConEvent.newCursor, ConEvent.readDatabase QUERY] ++
    (if close_con then [ConEvent.closeCon] else [])

/-- Invoke a method with a close flag.  dbc_docs has no close flag in the
source, so the flag is ignored for it. -/
def runMethod : Method → Bool → List ConEvent
  | Method.dbcDocs, _ => dbc_docs
  | Method.plDirectCon, b => pl_direct_con b
  | Method.plDirectCursor, b => pl_direct_cursor b

/-- The trace executes the fixed query text. -/
def executesQuery (tr : List ConEvent) : Prop :=
  ConEvent.execQuery QUERY ∈ tr ∨ ConEvent.readDatabase QUERY ∈ tr

/-- The trace materializes the result into an in-memory columnar table
(either an explicit DataFrame conversion or read_database, which returns
a DataFrame). -/
def materializes (tr : List ConEvent) : Prop :=
  ConEvent.toDataFrame ∈ tr ∨ ConEvent.readDatabase QUERY ∈ tr

/-- C1, counterexample: the claim instance at method dbc_docs with the
close flag false is wrong: dbc_docs has no close_con parameter and its
with-block always closes the connection, so closing does not depend on a
boolean parameter. -/
theorem c1_counterexample :
    ¬ (ConEvent.openCon ∈ runMethod Method.dbcDocs false ∧
       executesQuery (runMethod Method.dbcDocs false) ∧
       materializes (runMethod Method.dbcDocs false) ∧
       (ConEvent.closeCon ∈ runMethod Method.dbcDocs false ↔ false = true)) := by
  intro h
  have hmem : ConEvent.closeCon ∈ runMethod Method.dbcDocs false := by
    simp [runMethod, dbc_docs]
  exact absurd (h.2.2.2.1 hmem) (by simp)

/-- C1, amended: each of the three methods opens a connection, executes
the fixed query text and materializes the result into an in-memory
columnar table; pl_direct_con and pl_direct_cursor close the connection
iff their boolean parameter close_con (default true in the source) is
true, while dbc_docs always closes it. -/
theorem c1_amended (m : Method) (b : Bool) :
    ConEvent.openCon ∈ runMethod m b ∧
    executesQuery (runMethod m b) ∧
    materializes (runMethod m b) ∧
    (ConEvent.closeCon ∈ runMethod m b ↔ (m = Method.dbcDocs ∨ b = true)) := by
  cases m <;> cases b <;>
    simp [runMethod, dbc_docs, pl_direct_con, pl_direct_cursor,
      executesQuery, materializes]

/-- One library call made by main: which method, whether it is a timed
invocation (inside measure) or an untimed warm-up, in which phase block
it occurs, and the effective close_con flag (true for every call that
does not pass the flag explicitly, matching the source default). -/
structure Call where
  method : Method
  timed : Bool
  phase : Phase
  close_con : Bool
deriving DecidableEq

/-- One per-method block of main: the untimed warm-up call followed by
N_RUNS timed calls with the given close flag. -/
def methodBlock (m : Method) (p : Phase) (flag : Bool) : List Call :=
  ⟨m, false, p, true⟩ :: (List.range N_RUNS).map fun _ => ⟨m, true, p, flag⟩

/-- All library calls made by main, in execution order: phase 1 iterates
the three methods (warm-up then 30 timed runs each, default close flag),
phase 2 iterates pl_direct_con and pl_direct_cursor (warm-up with the
default flag, then 30 timed runs passing close_con = false). -/
def mainCalls : List Call :=
  methodBlock Method.dbcDocs Phase.closed true ++
  methodBlock Method.plDirectCon Phase.closed true ++
  methodBlock Method.plDirectCursor Phase.closed true ++
  methodBlock Method.plDirectCon Phase.notClosed false ++
  methodBlock Method.plDirectCursor Phase.notClosed false

/-- Number of warm-up (untimed) invocations of a method in main. -/
def warmupCount (m : Method) : Nat :=
  (mainCalls.filter fun c => decide (c.timed = false ∧ c.method = m)).length

/-- Every timed call has been preceded, somewhere earlier in the call
list, by a warm-up of the same method in the same phase. -/
def warmedCheck : List (Method × Phase) → List Call → Bool
  | _, [] => true
  | seen, c :: rest =>
    if c.timed then
      decide ((c.method, c.phase) ∈ seen) && warmedCheck seen rest
    else
      warmedCheck ((c.method, c.phase) :: seen) rest

/-- C2, counterexample: it is not the case that all warm-ups precede all
timed invocations and that no method is warmed up more than once:
pl_direct_con is warmed up twice (once at the start of each of its two
phase blocks). -/
theorem c2_counterexample :
    ¬ ((∀ p ∈ mainCalls.enum, ∀ q ∈ mainCalls.enum,
          p.2.timed = false → q.2.timed = true → p.1 < q.1) ∧
       (∀ m : Method, warmupCount m ≤ 1)) := by
  intro h
  have h2 := h.2 Method.plDirectCon
  have e : warmupCount Method.plDirectCon = 2 := rfl
  rw [e] at h2
  exact absurd h2 (by decide)

/-- C2, amended: every timed invocation is preceded by a warm-up of the
same method in the same phase block; dbc_docs is warmed up once while
pl_direct_con and pl_direct_cursor are warmed up twice (once per phase);
all closed-phase calls precede all not-closed-phase calls; each phase
performs 30 timed invocations per participating method, and the timed
not-closed invocations all pass close_con = false. -/
theorem c2_amended :
    warmedCheck [] mainCalls = true ∧
    warmupCount Method.dbcDocs = 1 ∧
    warmupCount Method.plDirectCon = 2 ∧
    warmupCount Method.plDirectCursor = 2 ∧
    mainCalls.map (fun c => c.phase) =
      List.replicate 93 Phase.closed ++ List.replicate 62 Phase.notClosed ∧
    (mainCalls.filter fun c =>
      decide (c.timed = true ∧ c.phase = Phase.closed)).length = 3 * N_RUNS ∧
    (mainCalls.filter fun c =>
      decide (c.timed = true ∧ c.phase = Phase.notClosed)).length = 2 * N_RUNS ∧
    (mainCalls.filter fun c =>
      decide (c.timed = true ∧ c.phase = Phase.notClosed)).all
        (fun c => !c.close_con) = true :=
  ⟨rfl, rfl, rfl, rfl, rfl, rfl, rfl, rfl⟩

/-- C10: in the not_closed phase the two warm-up invocations are made
with the close flag at its default true and their traces close the
connection, while every timed not_closed invocation passes
close_con = false and its trace leaves the connection open. -/
theorem c10_warmup_closes :
    (mainCalls.filter fun c =>
      decide (c.timed = false ∧ c.phase = Phase.notClosed)).map
        (fun c => c.close_con) = [true, true] ∧
    (mainCalls.filter fun c =>
      decide (c.timed = false ∧ c.phase = Phase.notClosed)).all
        (fun c => decide (ConEvent.closeCon ∈ runMethod c.method c.close_con)) = true ∧
    (mainCalls.filter fun c =>
      decide (c.timed = true ∧ c.phase = Phase.notClosed)).all
        (fun c => !c.close_con &&
          !(decide (ConEvent.closeCon ∈ runMethod c.method c.close_con))) = true :=
  ⟨rfl, rfl, rfl⟩

/-- One row of the per-run table: the payload dict built by main. -/
structure RunRecord where
  method : Method
  phase : Phase
  run : Nat
  time_sec : ℚ
deriving DecidableEq

/-- The measure helper: the k-th measure call reads the perf_counter
clock before and after invoking its callable and returns the difference.
clock maps the index of a perf_counter reading to its value; the k-th
measure call performs readings 2k and 2k+1. -/
def measure (clock : Nat → ℚ) (k : Nat) : ℚ :=
  clock (2 * k + 1) - clock (2 * k)

/-- The N_RUNS records one method contributes in one phase, in loop
order; base is the number of timed invocations made before this loop. -/
def methodRuns (clock : Nat → ℚ) (m : Method) (p : Phase) (base : Nat) :
    List RunRecord :=
  (List.range N_RUNS).map fun i => ⟨m, p, i + 1, measure clock (base + i)⟩

/-- records_close from main: phase 1 over the three methods. -/
def records_close (clock : Nat → ℚ) : List RunRecord :=
  methodRuns clock Method.dbcDocs Phase.closed 0 ++
  methodRuns clock Method.plDirectCon Phase.closed N_RUNS ++
  methodRuns clock Method.plDirectCursor Phase.closed (2 * N_RUNS)

/-- records_leak from main: phase 2 over the two no-close variants. -/
def records_leak (clock : Nat → ℚ) : List RunRecord :=
  methodRuns clock Method.plDirectCon Phase.notClosed (3 * N_RUNS) ++
  methodRuns clock Method.plDirectCursor Phase.notClosed (4 * N_RUNS)

/-- df from main: pl.concat of the two record lists, in append order.
This is the table written to runs.csv. -/
def df (clock : Nat → ℚ) : List RunRecord :=
  records_close clock ++ records_leak clock

/-- The (method, phase) key of a run record. -/
def keyOf (r : RunRecord) : Method × Phase := (r.method, r.phase)

/-- All six possible (method, phase) pairs. -/
def allKeys : List (Method × Phase) :=
  [(Method.dbcDocs, Phase.closed), (Method.plDirectCon, Phase.closed),
   (Method.plDirectCursor, Phase.closed), (Method.dbcDocs, Phase.notClosed),
   (Method.plDirectCon, Phase.notClosed), (Method.plDirectCursor, Phase.notClosed)]

/-- The distinct (method, phase) pairs present in a run table, each
exactly once.  polars group_by produces each distinct key once, in an
unspecified order; this canonical enumeration stands for the key set and
the enumeration order actually used is quantified separately, as an
arbitrary permutation of it. -/
def groupKeys (l : List RunRecord) : List (Method × Phase) :=
  allKeys.filter fun k => l.any fun r => decide (keyOf r = k)

/-- C3: the combined per-run table has exactly 150 rows, namely 30 per
method for the three methods of the closed phase and 30 per method for
the two methods of the not_closed phase (none for dbc_docs there). -/
theorem c3_runs_length (clock : Nat → ℚ) :
    (df clock).length = 150 ∧
    ∀ m : Method,
      ((df clock).filter fun r =>
        decide (r.method = m ∧ r.phase = Phase.closed)).length = N_RUNS ∧
      ((df clock).filter fun r =>
        decide (r.method = m ∧ r.phase = Phase.notClosed)).length =
        (if m = Method.dbcDocs then 0 else N_RUNS) := by
  refine ⟨rfl, ?_⟩
  intro m
  cases m <;> exact ⟨rfl, rfl⟩

/-- The five groups present in the benchmark table, for any clock. -/
theorem groupKeys_df (clock : Nat → ℚ) :
    groupKeys (df clock) =
      [(Method.dbcDocs, Phase.closed), (Method.plDirectCon, Phase.closed),
       (Method.plDirectCursor, Phase.closed),
       (Method.plDirectCon, Phase.notClosed),
       (Method.plDirectCursor, Phase.notClosed)] := rfl

/-- C4: within each (method, phase) group present in the table, the run
indices, in the order the records were appended, are exactly 1..30. -/
theorem c4_run_indices (clock : Nat → ℚ) (m : Method) (p : Phase)
    (h : (m, p) ∈ groupKeys (df clock)) :
    ((df clock).filter fun r => decide (keyOf r = (m, p))).map
      (fun r => r.run) = List.range' 1 N_RUNS := by
  rw [groupKeys_df] at h
  cases m <;> cases p <;> first
    | rfl
    | simp at h

/-- A concrete monotone clock used to instantiate the theorems. -/
def wclock : Nat → ℚ := fun n => (n : ℚ)

/-- C4, witness: the closed-phase dbc_docs group of the concrete table
has run indices exactly 1..30. -/
theorem c4_witness :
    ((df wclock).filter fun r =>
      decide (keyOf r = (Method.dbcDocs, Phase.closed))).map
        (fun r => r.run) = List.range' 1 N_RUNS :=
  c4_run_indices wclock Method.dbcDocs Phase.closed
    (by rw [groupKeys_df]; decide)

/-- Every record of the table gets its elapsed time from some measure
call, i.e. as the difference of two consecutive clock readings. -/
theorem time_sec_eq_measure (clock : Nat → ℚ) (r : RunRecord)
    (hr : r ∈ df clock) : ∃ k, r.time_sec = measure clock k := by
  have hblock : ∀ m p base, r ∈ methodRuns clock m p base →
      ∃ k, r.time_sec = measure clock k := by
    intro m p base hmem
    obtain ⟨i, _, hrec⟩ := List.mem_map.1 hmem
    exact ⟨base + i, by rw [← hrec]⟩
  rcases List.mem_append.1 hr with hc | hl
  · rcases List.mem_append.1 hc with hc2 | h3
    · rcases List.mem_append.1 hc2 with h1 | h2
      · exact hblock _ _ _ h1
      · exact hblock _ _ _ h2
    · exact hblock _ _ _ h3
  · rcases List.mem_append.1 hl with h4 | h5
    · exact hblock _ _ _ h4
    · exact hblock _ _ _ h5

/-- C9: with a monotone perf_counter clock, every run record of the
benchmark has a non-negative elapsed time, because measure returns the
difference of a later and an earlier clock reading. -/
theorem c9_time_nonneg (clock : Nat → ℚ) (hm : Monotone clock) :
    ∀ r ∈ df clock, 0 ≤ r.time_sec := by
  intro r hr
  obtain ⟨k, hk⟩ := time_sec_eq_measure clock r hr
  rw [hk, measure]
  exact sub_nonneg.2 (hm (by omega))

/-- wclock is monotone. -/
theorem wclock_mono : Monotone wclock := fun a b h => by
  simpa [wclock] using (Nat.cast_le (α := ℚ)).2 h

/-- C9, witness: the first record of the table produced with the concrete
monotone clock has non-negative elapsed time. -/
theorem c9_witness :
    (0 : ℚ) ≤
      (⟨Method.dbcDocs, Phase.closed, 1, measure wclock 0⟩ : RunRecord).time_sec :=
  c9_time_nonneg wclock wclock_mono _
    (List.mem_append_left _ (List.mem_append_left _ (List.mem_append_left _
      (List.mem_map.2 ⟨0, by simp [N_RUNS], rfl⟩))))

/-- The elapsed times of one (method, phase) group, in table order. -/
def groupTimes (l : List RunRecord) (k : Method × Phase) : List ℚ :=
  (l.filter fun r => decide (keyOf r = k)).map fun r => r.time_sec

/-- Minimum of a list of rationals (polars min over a nonempty group). -/
def listMin : List ℚ → ℚ
  | [] => 0
  | x :: xs => xs.foldl min x

/-- Maximum of a list of rationals (polars max over a nonempty group). -/
def listMax : List ℚ → ℚ
  | [] => 0
  | x :: xs => xs.foldl max x

/-- Arithmetic mean (polars mean over a nonempty group). -/
def listMean (l : List ℚ) : ℚ := l.sum / l.length

/-- Sample variance with ddof = 1, the polars default for std. -/
def listVar (l : List ℚ) : ℚ :=
  ((l.map fun x => (x - listMean l) ^ 2).sum) / ((l.length : ℚ) - 1)

/-- Sample standard deviation; polars std with ddof = 1 is null for
groups of fewer than two rows. -/
noncomputable def listStd (l : List ℚ) : Option ℝ :=
  if 2 ≤ l.length then some (Real.sqrt (listVar l)) else none

/-- One row of the summary table. -/
structure SummaryRow where
  method : Method
  phase : Phase
  mean : ℚ
  std : Option ℝ
  min : ℚ
  max : ℚ

/-- The aggregated row of one (method, phase) group. -/
noncomputable def rowOf (l : List RunRecord) (k : Method × Phase) : SummaryRow :=
  ⟨k.1, k.2, listMean (groupTimes l k), listStd (groupTimes l k),
   listMin (groupTimes l k), listMax (groupTimes l k)⟩

/-- group_by + agg: one row per group key, in the enumeration order ord
that the grouping happens to produce. -/
noncomputable def aggregateWith (ord : List (Method × Phase))
    (l : List RunRecord) : List SummaryRow :=
  ord.map (rowOf l)

/-- Comparison by mean, the sort key of the summary table. -/
def leMean (a b : SummaryRow) : Prop := a.mean ≤ b.mean

instance : DecidableRel leMean :=
  fun a b => inferInstanceAs (Decidable (a.mean ≤ b.mean))

instance : IsTotal SummaryRow leMean := ⟨fun a b => le_total a.mean b.mean⟩

instance : IsTrans SummaryRow leMean := ⟨fun _ _ _ h1 h2 => le_trans h1 h2⟩

/-- Strict comparison by mean. -/
def ltMean (a b : SummaryRow) : Prop := a.mean < b.mean

instance : IsAntisymm SummaryRow ltMean :=
  ⟨fun _ _ h1 h2 => absurd (lt_trans h1 h2) (lt_irrefl _)⟩

/-- The summary table: aggregate with group enumeration order ord, then
sort ascending by mean (a stable sort fed an arbitrary enumeration
order, which together model the unspecified polars ordering). -/
noncomputable def summaryWith (ord : List (Method × Phase))
    (l : List RunRecord) : List SummaryRow :=
  List.insertionSort leMean (aggregateWith ord l)

/-- The summary table with the canonical key enumeration. -/
noncomputable def summary (l : List RunRecord) : List SummaryRow :=
  summaryWith (groupKeys l) l

/-- A present group key has a nonempty list of times. -/
theorem groupTimes_ne_nil {l : List RunRecord} {k : Method × Phase}
    (h : k ∈ groupKeys l) : groupTimes l k ≠ [] := by
  rw [groupKeys, List.mem_filter] at h
  obtain ⟨r, hr, hkr⟩ := List.any_eq_true.1 h.2
  have hmem : r.time_sec ∈ groupTimes l k :=
    List.mem_map.2 ⟨r, List.mem_filter.2 ⟨hr, hkr⟩, rfl⟩
  exact List.ne_nil_of_mem hmem

/-- A left fold of min is bounded by its initial value. -/
theorem foldl_min_le_init (xs : List ℚ) : ∀ x : ℚ, xs.foldl min x ≤ x := by
  induction xs with
  | nil => exact fun x => le_refl x
  | cons a xs ih =>
    intro x
    exact le_trans (ih (min x a)) (min_le_left x a)

/-- A left fold of min is bounded by every list element. -/
theorem foldl_min_le_mem {y : ℚ} (xs : List ℚ) :
    ∀ x : ℚ, y ∈ xs → xs.foldl min x ≤ y := by
  induction xs with
  | nil => intro x h; cases h
  | cons a xs ih =>
    intro x h
    rcases List.mem_cons.1 h with rfl | h
    · exact le_trans (foldl_min_le_init xs (min x y)) (min_le_right x y)
    · exact ih (min x a) h

/-- The minimum of a list is at most every element. -/
theorem listMin_le_of_mem {l : List ℚ} {y : ℚ} (h : y ∈ l) : listMin l ≤ y := by
  cases l with
  | nil => cases h
  | cons x xs =>
    rcases List.mem_cons.1 h with rfl | h
    · exact foldl_min_le_init xs y
    · exact foldl_min_le_mem xs x h

/-- A left fold of max is bounded below by its initial value. -/
theorem init_le_foldl_max (xs : List ℚ) : ∀ x : ℚ, x ≤ xs.foldl max x := by
  induction xs with
  | nil => exact fun x => le_refl x
  | cons a xs ih =>
    intro x
    exact le_trans (le_max_left x a) (ih (max x a))

/-- A left fold of max is bounded below by every list element. -/
theorem mem_le_foldl_max {y : ℚ} (xs : List ℚ) :
    ∀ x : ℚ, y ∈ xs → y ≤ xs.foldl max x := by
  induction xs with
  | nil => intro x h; cases h
  | cons a xs ih =>
    intro x h
    rcases List.mem_cons.1 h with rfl | h
    · exact le_trans (le_max_right x y) (init_le_foldl_max xs (max x y))
    · exact ih (max x a) h

/-- Every element of a list is at most its maximum. -/
theorem le_listMax_of_mem {l : List ℚ} {y : ℚ} (h : y ∈ l) : y ≤ listMax l := by
  cases l with
  | nil => cases h
  | cons x xs =>
    rcases List.mem_cons.1 h with rfl | h
    · exact init_le_foldl_max xs y
    · exact mem_le_foldl_max xs x h

/-- The minimum is at most the mean, on a nonempty list. -/
theorem listMin_le_listMean {l : List ℚ} (h : l ≠ []) :
    listMin l ≤ listMean l := by
  have hpos : (0 : ℚ) < l.length := by
    cases l with
    | nil => exact absurd rfl h
    | cons x xs => exact_mod_cast Nat.succ_pos xs.length
  rw [listMean, le_div_iff₀ hpos]
  have hb := List.card_nsmul_le_sum l (listMin l) (fun y hy => listMin_le_of_mem hy)
  rw [nsmul_eq_mul] at hb
  rw [mul_comm]
  exact hb

/-- The mean is at most the maximum, on a nonempty list. -/
theorem listMean_le_listMax {l : List ℚ} (h : l ≠ []) :
    listMean l ≤ listMax l := by
  have hpos : (0 : ℚ) < l.length := by
    cases l with
    | nil => exact absurd rfl h
    | cons x xs => exact_mod_cast Nat.succ_pos xs.length
  rw [listMean, div_le_iff₀ hpos]
  have hb := List.sum_le_card_nsmul l (listMax l) (fun y hy => le_listMax_of_mem hy)
  rw [nsmul_eq_mul] at hb
  rw [mul_comm]
  exact hb

/-- C5: for any enumeration order of the groups, the summary table has
exactly one row per distinct (method, phase) pair present in the run
table (its key column is a permutation of the duplicate-free key list),
and every row satisfies min ≤ mean ≤ max. -/
theorem c5_summary_groups (clock : Nat → ℚ) (ord : List (Method × Phase))
    (hord : ord.Perm (groupKeys (df clock))) :
    ((summaryWith ord (df clock)).map (fun s => (s.method, s.phase))).Perm
      (groupKeys (df clock)) ∧
    (groupKeys (df clock)).Nodup ∧
    ∀ s ∈ summaryWith ord (df clock), s.min ≤ s.mean ∧ s.mean ≤ s.max := by
  refine ⟨?_, ?_, ?_⟩
  · have h1 : (aggregateWith ord (df clock)).map
        (fun s => (s.method, s.phase)) = ord := by
      simp [aggregateWith, rowOf, List.map_map, Function.comp_def]
    have h2 : ((aggregateWith ord (df clock)).map
        (fun s => (s.method, s.phase))).Perm (groupKeys (df clock)) := by
      rw [h1]; exact hord
    exact ((List.perm_insertionSort leMean _).map _).trans h2
  · exact List.Nodup.filter _ (by decide)
  · intro s hs
    have hs2 : s ∈ aggregateWith ord (df clock) :=
      (List.perm_insertionSort leMean _).subset hs
    obtain ⟨k, hk, rfl⟩ := List.mem_map.1 hs2
    have hne := groupTimes_ne_nil (hord.subset hk)
    exact ⟨listMin_le_listMean hne, listMean_le_listMax hne⟩

/-- C5, witness: with the concrete clock and the canonical enumeration,
the key column of the summary is a permutation of the group keys. -/
theorem c5_witness :
    ((summaryWith (groupKeys (df wclock)) (df wclock)).map
      (fun s => (s.method, s.phase))).Perm (groupKeys (df wclock)) :=
  (c5_summary_groups wclock (groupKeys (df wclock)) (List.Perm.refl _)).1

/-- C6: the summary table is sorted by non-decreasing mean, for any
enumeration order of the groups, in particular for the canonical one. -/
theorem c6_summary_sorted (clock : Nat → ℚ) (ord : List (Method × Phase)) :
    (summaryWith ord (df clock)).Sorted leMean ∧
    (summary (df clock)).Sorted leMean :=
  ⟨List.sorted_insertionSort leMean _, List.sorted_insertionSort leMean _⟩

/-- Two permutations of each other that are both sorted by mean and
whose means are pairwise distinct are equal. -/
theorem sorted_eq_of_perm_of_distinct {l1 l2 : List SummaryRow}
    (hp : l1.Perm l2) (hs1 : l1.Sorted leMean) (hs2 : l2.Sorted leMean)
    (hd : l1.Pairwise fun a b => a.mean ≠ b.mean) : l1 = l2 := by
  have hsymm : ∀ {a b : SummaryRow}, a.mean ≠ b.mean → b.mean ≠ a.mean :=
    fun h => Ne.symm h
  have hd2 : l2.Pairwise (fun a b => a.mean ≠ b.mean) :=
    (hp.pairwise_iff hsymm).1 hd
  have hst1 : l1.Sorted ltMean :=
    (List.Pairwise.and hs1 hd).imp fun h => lt_of_le_of_ne h.1 h.2
  have hst2 : l2.Sorted ltMean :=
    (List.Pairwise.and hs2 hd2).imp fun h => lt_of_le_of_ne h.1 h.2
  exact List.eq_of_perm_of_sorted hp hst1 hst2

/-- A two-row table whose two singleton groups both have mean 1. -/
def cexDf : List RunRecord :=
  [⟨Method.dbcDocs, Phase.closed, 1, 1⟩,
   ⟨Method.plDirectCon, Phase.closed, 1, 1⟩]

/-- Both rows of the tied table have mean 1. -/
theorem cex_mean (k : Method × Phase) (hk : k ∈ groupKeys cexDf) :
    (rowOf cexDf k).mean = 1 := by
  rw [show groupKeys cexDf =
      [(Method.dbcDocs, Phase.closed), (Method.plDirectCon, Phase.closed)]
    from rfl] at hk
  show listMean (groupTimes cexDf k) = 1
  rcases List.mem_cons.1 hk with rfl | hk
  · rw [show groupTimes cexDf (Method.dbcDocs, Phase.closed) = [1] from rfl]
    norm_num [listMean, List.sum_cons, List.sum_nil]
  rw [List.mem_singleton] at hk
  subst hk
  rw [show groupTimes cexDf (Method.plDirectCon, Phase.closed) = [1] from rfl]
  norm_num [listMean, List.sum_cons, List.sum_nil]

/-- C8, counterexample: the pipeline output is not independent of the
group enumeration order when two groups have equal means: on a two-row
table whose two singleton groups both have mean 1, the two possible
enumeration orders give summary tables with opposite row orders. -/
theorem c8_counterexample :
    [(Method.plDirectCon, Phase.closed),
     (Method.dbcDocs, Phase.closed)].Perm (groupKeys cexDf) ∧
    summaryWith (groupKeys cexDf) cexDf ≠
      summaryWith
        [(Method.plDirectCon, Phase.closed), (Method.dbcDocs, Phase.closed)]
        cexDf := by
  refine ⟨by decide, fun h => ?_⟩
  have hA : leMean (rowOf cexDf (Method.dbcDocs, Phase.closed))
      (rowOf cexDf (Method.plDirectCon, Phase.closed)) := by
    rw [leMean, cex_mean _ (by decide), cex_mean _ (by decide)]
  have hB : leMean (rowOf cexDf (Method.plDirectCon, Phase.closed))
      (rowOf cexDf (Method.dbcDocs, Phase.closed)) := by
    rw [leMean, cex_mean _ (by decide), cex_mean _ (by decide)]
  have e1 : summaryWith (groupKeys cexDf) cexDf =
      [rowOf cexDf (Method.dbcDocs, Phase.closed),
       rowOf cexDf (Method.plDirectCon, Phase.closed)] := by
    rw [show groupKeys cexDf =
        [(Method.dbcDocs, Phase.closed), (Method.plDirectCon, Phase.closed)]
      from rfl]
    simp only [summaryWith, aggregateWith, List.map_cons, List.map_nil,
      List.insertionSort, List.orderedInsert]
    rw [if_pos hA]
  have e2 : summaryWith
      [(Method.plDirectCon, Phase.closed), (Method.dbcDocs, Phase.closed)]
      cexDf =
      [rowOf cexDf (Method.plDirectCon, Phase.closed),
       rowOf cexDf (Method.dbcDocs, Phase.closed)] := by
    simp only [summaryWith, aggregateWith, List.map_cons, List.map_nil,
      List.insertionSort, List.orderedInsert]
    rw [if_pos hB]
  rw [e1, e2] at h
  injection h with h1 _
  have hm := congrArg SummaryRow.method h1
  exact absurd hm (by decide)

/-- C8, amended: for one fixed input run table, any two runs of the
grouping/aggregation/sort pipeline produce summary tables that are
permutations of each other; and whenever the group means are pairwise
distinct the two outputs are identical, row order included. -/
theorem c8_amended (l : List RunRecord) (ord1 ord2 : List (Method × Phase))
    (h1 : ord1.Perm (groupKeys l)) (h2 : ord2.Perm (groupKeys l)) :
    (summaryWith ord1 l).Perm (summaryWith ord2 l) ∧
    ((groupKeys l).Pairwise
        (fun j k => listMean (groupTimes l j) ≠ listMean (groupTimes l k)) →
      summaryWith ord1 l = summaryWith ord2 l) := by
  have hperm : (summaryWith ord1 l).Perm (summaryWith ord2 l) :=
    ((List.perm_insertionSort leMean _).trans
      ((h1.trans h2.symm).map (rowOf l))).trans
      (List.perm_insertionSort leMean _).symm
  refine ⟨hperm, fun hd => ?_⟩
  have hsymm : ∀ {j k : Method × Phase},
      listMean (groupTimes l j) ≠ listMean (groupTimes l k) →
      listMean (groupTimes l k) ≠ listMean (groupTimes l j) :=
    fun h => Ne.symm h
  have hord1 : ord1.Pairwise
      (fun j k => listMean (groupTimes l j) ≠ listMean (groupTimes l k)) :=
    (h1.pairwise_iff hsymm).2 hd
  have hagg : (aggregateWith ord1 l).Pairwise
      (fun a b => a.mean ≠ b.mean) := by
    rw [aggregateWith, List.pairwise_map]
    exact hord1
  have hsorted : (summaryWith ord1 l).Pairwise
      (fun a b => a.mean ≠ b.mean) :=
    ((List.perm_insertionSort leMean
        (aggregateWith ord1 l)).pairwise_iff
      (fun h => Ne.symm h)).2 hagg
  exact sorted_eq_of_perm_of_distinct hperm
    (List.sorted_insertionSort leMean _)
    (List.sorted_insertionSort leMean _) hsorted

/-- A two-row table whose two singleton groups have means 1 and 2. -/
def wdf : List RunRecord :=
  [⟨Method.dbcDocs, Phase.closed, 1, 1⟩,
   ⟨Method.plDirectCon, Phase.closed, 1, 2⟩]

/-- The group means of wdf are pairwise distinct. -/
theorem wdf_distinct_means :
    (groupKeys wdf).Pairwise
      (fun j k => listMean (groupTimes wdf j) ≠ listMean (groupTimes wdf k)) := by
  rw [show groupKeys wdf =
      [(Method.dbcDocs, Phase.closed), (Method.plDirectCon, Phase.closed)]
    from rfl]
  refine List.pairwise_cons.2 ⟨?_, List.pairwise_singleton _ _⟩
  intro k hk
  rw [List.mem_singleton] at hk
  subst hk
  rw [show groupTimes wdf (Method.dbcDocs, Phase.closed) = [1] from rfl,
      show groupTimes wdf (Method.plDirectCon, Phase.closed) = [2] from rfl]
  norm_num [listMean, List.sum_cons, List.sum_nil]

/-- C8, witness: on a concrete two-row table whose two groups have the
distinct means 1 and 2, the two enumeration orders give the same summary
table. -/
theorem c8_witness :
    summaryWith (groupKeys wdf) wdf =
    summaryWith
      [(Method.plDirectCon, Phase.closed), (Method.dbcDocs, Phase.closed)]
      wdf :=
  (c8_amended wdf _ _ (List.Perm.refl _) (by decide)).2 wdf_distinct_means

/-- The successive top-level steps of main: one step per library call
(warm-ups and timed invocations of the two phases, in order), then the
aggregation, then the two file writes, runs.csv first. -/
inductive StepTag
  | call : Call → StepTag
  | aggregateStep : StepTag
  | writeRuns : StepTag
  | writeSummary : StepTag
deriving DecidableEq

/-- The files a step writes. -/
def stepWrites : StepTag → List String
  | StepTag.writeRuns => ["runs.csv"]
  | StepTag.writeSummary => ["summary.csv"]
  | _ => []

/-- The step sequence of one run of main. -/
def programSteps : List StepTag :=
  mainCalls.map StepTag.call ++
    [StepTag.aggregateStep, StepTag.writeRuns, StepTag.writeSummary]

/-- Run steps in order, starting at step index k.  fails tells for each
step index whether that step raises (and with which error).  A raising
step performs no writes and stops the run; the error is returned
unchanged.  Returns the files written and the propagated error, if any. -/
def execSteps {ε : Type} (fails : Nat → Option ε) :
    Nat → List StepTag → List String × Option ε
  | _, [] => ([], none)
  | k, s :: rest =>
    match fails k with
    | some e => ([], some e)
    | none =>
      let p := execSteps fails (k + 1) rest
      (stepWrites s ++ p.1, p.2)

/-- If the first failing step comes at index j, and no step before j
writes a file, the run writes nothing and propagates that error. -/
theorem execSteps_fail {ε : Type} (fails : Nat → Option ε) (e : ε) :
    ∀ (j : Nat) (steps : List StepTag) (k : Nat),
      (∀ i, i < j → fails (k + i) = none) → fails (k + j) = some e →
      j < steps.length → (∀ s ∈ steps.take j, stepWrites s = []) →
      execSteps fails k steps = ([], some e) := by
  intro j
  induction j with
  | zero =>
    intro steps k _ hj hlen _
    cases steps with
    | nil => simp at hlen
    | cons s rest =>
      have hk : fails k = some e := by simpa using hj
      simp [execSteps, hk]
  | succ j ih =>
    intro steps k hb hj hlen hw
    cases steps with
    | nil => simp at hlen
    | cons s rest =>
      have h0 : fails k = none := by simpa using hb 0 (Nat.succ_pos j)
      have hs : stepWrites s = [] := by
        apply hw
        simp [List.take_succ_cons]
      have hrest : execSteps fails (k + 1) rest = ([], some e) := by
        apply ih rest (k + 1)
        · intro i hi
          have := hb (i + 1) (Nat.succ_lt_succ hi)
          rwa [show k + (i + 1) = k + 1 + i by omega] at this
        · rwa [show k + 1 + j = k + (j + 1) by omega]
        · simpa using Nat.lt_of_succ_lt_succ hlen
        · intro t ht
          apply hw
          rw [List.take_succ_cons]
          exact List.mem_cons_of_mem s ht
      simp [execSteps, h0, hrest, hs]

/-- C7: no file-writing step occurs among the library calls and the
aggregation, and if any of those steps raises (each earlier one having
succeeded), the error propagates unchanged, the run aborts, and no
output file at all is written. -/
theorem c7_failure_aborts {ε : Type} (fails : Nat → Option ε) (e : ε)
    (j : Nat) (hb : ∀ i, i < j → fails i = none) (hj : fails j = some e)
    (hlt : j < mainCalls.length + 1) :
    execSteps fails 0 programSteps = ([], some e) ∧
    ∀ s ∈ programSteps.take (mainCalls.length + 1), stepWrites s = [] := by
  have hw : ∀ s ∈ programSteps.take (mainCalls.length + 1),
      stepWrites s = [] := by decide
  refine ⟨?_, hw⟩
  apply execSteps_fail fails e j programSteps 0
  · intro i hi
    simpa using hb i hi
  · simpa using hj
  · have hlen : programSteps.length = mainCalls.length + 3 := by
      simp [programSteps]
    omega
  · intro s hs
    apply hw
    have htake : programSteps.take j =
        (programSteps.take (mainCalls.length + 1)).take j := by
      rw [List.take_take, min_eq_left (le_of_lt hlt)]
    rw [htake] at hs
    exact List.take_subset _ _ hs

/-- The failure oracle that raises the error 7 at the very first step. -/
def wfails : Nat → Option Nat := fun i => if i = 0 then some 7 else none

/-- C7, witness: when the very first library call raises, the run
propagates that error and writes no file. -/
theorem c7_witness : execSteps wfails 0 programSteps = ([], some 7) :=
  (c7_failure_aborts wfails 7 0 (fun i hi => absurd hi (Nat.not_lt_zero i))
    (by decide) (by decide)).1

end DbcPolars
